import Mathlib

/-!
Verification of the las-trimmer concurrent ingest-filter-route-write pipeline.

The definitions below are a shallow embedding of the Rust sources:

* `src/lib.rs`   — `LasProcessor`, `process_lidar_files` (reader tasks,
  routing channel, writer loop, progress monitor, header transform);
* `src/errors.rs` — the `MyError` enum;
* `src/main.rs`  — the legacy binary's progress-monitor loop.

Records (`las::Point`) are modelled with their routed fields: coordinates,
intensity and the variable-length `extra_bytes` block.  Predicates are
arbitrary boolean functions on records, exactly as the Rust code takes
`Arc<dyn Fn(&Point) -> bool>` closures.  Fallible operations return
`Option`/an explicit outcome type, and every `unwrap()` in the source is
modelled as the `panicked` outcome.
-/

namespace LasTrimmer

/-- Model of `las::Point` restricted to the fields the pipeline touches:
core geometric coordinates, intensity and the auxiliary `extra_bytes`
attribute block (`point.extra_bytes` in `lib.rs` line 290). -/
structure Point where
  x : Int
  y : Int
  z : Int
  intensity : Nat
  extra_bytes : List Nat
deriving DecidableEq

/-- The records a writer appends to sink `j`, reading off a routed message
sequence: contents of all messages tagged `j`, in message order.  This is the
order the single writer loop (`lib.rs` lines 285-293) appends them. -/
def contentsFor (j : Nat) (msgs : List (Nat × List Point)) : List Point :=
  ((msgs.filter (fun m => m.1 == j)).map Prod.snd).flatten

/-- One reader-task step for one pulled record (`lib.rs` lines 222-239):
iterate over the `(condition, accumulator)` pairs in index order starting at
`j`; when a condition accepts the point it is pushed onto that accumulator,
and if the accumulator has then reached `vec_size` the batch is sent on the
channel.  This function returns the messages sent during the step. -/
def routeMsgs (vecSize : Nat) (p : Point) :
    List ((Point → Bool) × List Point) → Nat → List (Nat × List Point)
  | [], _ => []
  | (cond, acc) :: rest, j =>
    if cond p then
      if vecSize ≤ acc.length + 1 then
        (j, acc ++ [p]) :: routeMsgs vecSize p rest (j + 1)
      else
        routeMsgs vecSize p rest (j + 1)
    else
      routeMsgs vecSize p rest (j + 1)

/-- The accumulator state after the same step (`lib.rs` lines 222-239):
accepted points are appended, and an accumulator that reached `vec_size` is
cleared after its batch is sent. -/
def routeAccs (vecSize : Nat) (p : Point) :
    List ((Point → Bool) × List Point) → List (List Point)
  | [] => []
  | (cond, acc) :: rest =>
    (if cond p then
       (if vecSize ≤ acc.length + 1 then [] else acc ++ [p])
     else acc) :: routeAccs vecSize p rest

/-- One reader task's main loop over its source's records (`lib.rs` lines
210-240), threading the per-sink accumulators and collecting the messages
sent, in send order. -/
def readerRun (conds : List (Point → Bool)) (vecSize : Nat) :
    List Point → List (List Point) → List (Nat × List Point) × List (List Point)
  | [], accs => ([], accs)
  | p :: rest, accs =>
    let msgs := routeMsgs vecSize p (conds.zip accs) 0
    let accs2 := routeAccs vecSize p (conds.zip accs)
    let out := readerRun conds vecSize rest accs2
    (msgs ++ out.1, out.2)

/-- The final flush after source exhaustion (`lib.rs` lines 242-255): each
non-empty accumulator is sent as one last batch, in index order. -/
def flushAccs : List (List Point) → Nat → List (Nat × List Point)
  | [], _ => []
  | acc :: rest, j =>
    if acc.isEmpty then flushAccs rest (j + 1)
    else (j, acc) :: flushAccs rest (j + 1)

/-- The complete message sequence one reader task produces for one source:
the loop's messages followed by the final flush.  Accumulators start empty,
one per configured condition (`lib.rs` lines 206-207). -/
def readerMessages (conds : List (Point → Bool)) (vecSize : Nat)
    (pts : List Point) : List (Nat × List Point) :=
  let r := readerRun conds vecSize pts (List.replicate conds.length [])
  r.1 ++ flushAccs r.2 0

/-- The per-record transform the writer applies before `write_point`
(`lib.rs` lines 288-291): when `strip_extra_bytes` is set the record's
`extra_bytes` vector is cleared, otherwise the record is written as-is. -/
def stripIf (strip : Bool) (p : Point) : Point :=
  if strip then { p with extra_bytes := [] } else p

/-- One iteration of the writer loop body for a received `(index, batch)`
message (`lib.rs` lines 285-293): each record of the batch, optionally
stripped, is appended to `writers[index]`.  Indexing out of range is the
Rust panic, modelled as `none`. -/
def writeBatch (strip : Bool) (outs : List (List Point)) (idx : Nat)
    (pts : List Point) : Option (List (List Point)) :=
  match outs.get? idx with
  | none => none
  | some cur => some (outs.set idx (cur ++ pts.map (stripIf strip)))

/-- The writer loop (`lib.rs` lines 285-301): drain the channel's messages in
arrival order, appending each batch to its addressed sink. -/
def writerRun (strip : Bool) :
    List (Nat × List Point) → List (List Point) → Option (List (List Point))
  | [], outs => some outs
  | (idx, pts) :: rest, outs =>
    match writeBatch strip outs idx pts with
    | none => none
    | some outs2 => writerRun strip rest outs2

/-- An arrival order of the bounded multi-producer channel: `out` is an
interleaving of the per-producer message sequences `ls`, i.e. it is built by
repeatedly taking the next pending message of some producer.  Any real
schedule of the crossbeam channel used in `lib.rs` line 169 delivers such an
interleaving to the single receiving loop. -/
inductive IsInterleave {α : Type} : List (List α) → List α → Prop
  | empty (ls : List (List α)) : (∀ l ∈ ls, l = []) → IsInterleave ls []
  | pick (ls : List (List α)) (i : Nat) (hd : α) (tl : List α) (out : List α) :
      ls.get? i = some (hd :: tl) → IsInterleave (ls.set i tl) out →
      IsInterleave ls (hd :: out)

/-- Tag every message of the `k`-th producer sequence with the producer index
`s0 + k`, so that the origin of each message in an interleaving can be
spoken about. -/
def tagLists {α : Type} : Nat → List (List α) → List (List (Nat × α))
  | _, [] => []
  | s, l :: rest => l.map (fun m => (s, m)) :: tagLists (s + 1) rest

/-- Model of `las::point::Format` restricted to what the header transform
touches: the base format number and the declared number of extra bytes. -/
structure PointFormat where
  base : Nat
  extra_bytes : Nat
deriving DecidableEq

/-- Model of the `las` header as used by the pipeline: point format plus the
declared record count. -/
structure Header where
  point_format : PointFormat
  number_of_points : Nat
deriving DecidableEq

/-- The header transform of `lib.rs` lines 151-167: with
`strip_extra_bytes` set, a fresh format with the same base number and
`extra_bytes = 0` replaces the first source's format; otherwise the first
source's header is used unchanged. -/
def outputHeader (strip : Bool) (old : Header) : Header :=
  if strip then
    { old with point_format := { base := old.point_format.base, extra_bytes := 0 } }
  else old

/-- The error enum of `src/errors.rs` lines 4-22, verbatim (payloads of the
two `#[from]` variants are irrelevant to the claims and omitted). -/
inductive MyError where
  | ReadError
  | InputOutputError
  | LockError
  | ThreadError
  | SendError
  | InvalidOutputExtension
  | InvalidInputPath
  | InvalidFilterFunction
deriving DecidableEq

/-- Outcome of a call to `process_lidar_files`: normal return `Ok(())`,
a panic (every `unwrap()` in the function body), or `Err(e)`. -/
inductive RunResult where
  | success
  | panicked
  | failure (e : MyError)
deriving DecidableEq

/-- The reader-pool sizing of `lib.rs` line 170:
`num_threads - 2 - self.output_paths.len()` on `usize`.  Each unchecked
subtraction underflow is a Rust panic, modelled as `none`. -/
def sendthreads (numThreads nOuts : Nat) : Option Nat :=
  if numThreads < 2 then none
  else if numThreads - 2 < nOuts then none
  else some (numThreads - 2 - nOuts)

/-- `ThreadPool::new` (`lib.rs` line 171) asserts its argument is positive
and panics on zero. -/
def threadPoolNew (n : Nat) : Option Nat :=
  if n = 0 then none else some n

/-- The pool construction sequence of `lib.rs` lines 169-171. -/
def readerPoolSetup (numThreads nOuts : Nat) : Option Nat :=
  match sendthreads numThreads nOuts with
  | none => none
  | some n => threadPoolNew n

/-- The `LasProcessor` struct of `lib.rs` lines 49-59. -/
structure LasProcessor where
  paths : List String
  output_paths : List String
  conditions : List (Point → Bool)
  vec_size : Nat
  strip_extra_bytes : Bool

/-- `LasProcessor::new` (`lib.rs` lines 65-79): stores the arguments and the
fixed `vec_size` of 100000.  It performs no validation of any kind. -/
def LasProcessor.new (paths output_paths : List String)
    (conditions : List (Point → Bool)) (strip_extra_bytes : Bool) :
    LasProcessor :=
  { paths := paths, output_paths := output_paths, vec_size := 100000,
    conditions := conditions, strip_extra_bytes := strip_extra_bytes }

/-- Error-and-panic behaviour of `process_lidar_files` (`lib.rs` lines
82-318).  `fs` maps a path to its readable content (`none` = the open
fails); `sinksOk` says whether every `Writer::from_path` succeeds.  The
stages mirror the source's order:

1. `self.paths[0]` then `Reader::from_path(..).unwrap()` (line 152) — an
   empty path list or an unreadable first source panics the calling thread;
2. pool sizing and `ThreadPool::new` (lines 169-171);
3. `Writer::from_path(..).unwrap()` per output path (lines 280-284);
4. the receive loop writes every delivered batch with
   `writers[index].write_point(..).unwrap()` (lines 285-301) — an
   out-of-range sink index panics;
5. the function ends in `Ok(())` (line 317).

A reader task whose source fails to open panics inside the pool with
`.unwrap()` and is never joined or checked, so it contributes no messages
and does not change the return value: only readable sources contribute.
The message order used here is one representative channel schedule; the
outcome does not depend on the schedule. -/
def LasProcessor.process_lidar_files (self : LasProcessor)
    (numThreads : Nat) (fs : String → Option (List Point)) (sinksOk : Bool) :
    RunResult :=
  match self.paths.get? 0 with
  | none => .panicked
  | some p0 =>
    match fs p0 with
    | none => .panicked
    | some _ =>
      match readerPoolSetup numThreads self.output_paths.length with
      | none => .panicked
      | some _ =>
        if sinksOk = false then .panicked
        else
          let msgs := ((self.paths.filterMap fs).map
            (readerMessages self.conditions self.vec_size)).flatten
          match writerRun self.strip_extra_bytes msgs
              (List.replicate self.output_paths.length []) with
          | some _ => .success
          | none => .panicked

/-- Events of the orchestrating thread of `process_lidar_files`, plus the
events that never appear in it (joining a reader; a reader's termination
happens on a pool thread, not on the orchestrator). -/
inductive Ev where
  | spawnMonitor
  | openFirstHeader
  | createChannelAndPool
  | scheduleReader (i : Nat)
  | dropMainSender
  | openSinks
  | recvLoop
  | returnOk
  | joinReader (i : Nat)
  | readerTerminates (i : Nat)
deriving DecidableEq

/-- The orchestrator thread's program order in `process_lidar_files`:
monitor spawn (line 100), header open (line 152), channel and pool creation
(lines 169-171), `pool.execute` per source (lines 176-275), `drop(tx)`
(line 277), sink opens (lines 280-284), the receive loop (lines 285-301),
and the final `Ok(())`.  No join of the reader tasks occurs anywhere. -/
def mainThreadEvents (numSources : Nat) : List Ev :=
  [Ev.spawnMonitor, Ev.openFirstHeader, Ev.createChannelAndPool] ++
  (List.range numSources).map Ev.scheduleReader ++
  [Ev.dropMainSender, Ev.openSinks, Ev.recvLoop, Ev.returnOk]

/-- Number of live sender handles of the routing channel after the events of
`trace`: the orchestrator's own handle until `drop(tx)` (line 277), plus one
clone per reader task (`tx.clone()`, line 178) held until that task
terminates. -/
def sendersAfter (n : Nat) (trace : List Ev) : Nat :=
  (if Ev.dropMainSender ∈ trace then 0 else 1) +
  ((List.range n).filter
    (fun i => decide (Ev.readerTerminates i ∉ trace))).length

/-- Counter update of `lib.rs` line 194: a reader adds its source's declared
record count to the shared total-points-to-read counter. -/
def addTotalToRead (count s : Nat) : Nat := s + count

/-- Counter update of `lib.rs` line 219: the shared points-read counter is
incremented once per pulled record. -/
def incPointsRead (s : Nat) : Nat := s + 1

/-- Counter update of `lib.rs` lines 231 and 249: the batch length is added
to the shared total-points-to-write counter before the batch is sent. -/
def addTotalToWrite (batchLen s : Nat) : Nat := s + batchLen

/-- Counter update of `lib.rs` line 299: the batch length is added to the
shared points-written counter after the batch is appended. -/
def addPointsWritten (batchLen s : Nat) : Nat := s + batchLen

/-- The points-written counter along the writer loop, after processing a
message sequence: the fold of `addPointsWritten` over the batch lengths. -/
def writtenCounterTrace (msgs : List (Nat × List Point)) : Nat :=
  msgs.foldl (fun s m => addPointsWritten m.2.length s) 0

/-- One tick of the legacy monitor in `src/main.rs` lines 36-67, acting on
the state `(total_points, points_written, points_read)` with the observed
elapsed seconds.  The source, in order: if `points_read` is zero it prints
an idle line, re-zeroes it and continues; otherwise it subtracts
`points_read` from `total_points`, computes `points_per_second =
points_read / time_elapsed` and `time_left = total_points /
points_per_second` — both unchecked integer divisions, a panic (`none`)
when the divisor is zero — and finally resets `points_written` and
`points_read` to zero. -/
def mainsrcMonitorTick (timeElapsed totalPoints pointsWritten pointsRead :
    Nat) : Option (Nat × Nat × Nat) :=
  if pointsRead = 0 then some (totalPoints, pointsWritten, 0)
  else
    if timeElapsed = 0 then none
    else
      if pointsRead / timeElapsed = 0 then none
      else some (totalPoints - pointsRead, 0, 0)

/-- What one tick of the library monitor emits (`lib.rs` lines 103-146):
either the idle notice of line 115, or the status line of line 134 carrying
the per-tick read/write deltas, the remaining read/write counts, and the
numerator and denominator of the floating-point percent-complete division
of line 131 (`points_r as f64 / total_points_to_read as f64`). -/
inductive TickOut where
  | idle
  | status (readDelta writeDelta readLeft writeLeft percentNum percentDen :
      Nat)
deriving DecidableEq

/-- The monitor's own memory between ticks (`previous_read`,
`previous_written`, `lib.rs` lines 101-102). -/
structure MonitorState where
  prevRead : Nat
  prevWritten : Nat
deriving DecidableEq

/-- One tick of the library monitor (`lib.rs` lines 103-146) reading the
cumulative shared counters.  The idle branch (lines 114-120) fires exactly
when the cumulative `points_read` and `points_written` are both zero, and
`continue`s without touching `previous_read`/`previous_written`; otherwise
the status line is printed from unchecked `usize` subtractions and the
percent division, and the previous-counters memory is updated.  The monitor
never writes any shared counter and its loop has no exit. -/
def libMonitorTick (pointsRead pointsWritten totalRead totalWritten : Nat)
    (st : MonitorState) : TickOut × MonitorState :=
  if pointsRead = 0 ∧ pointsWritten = 0 then
    (TickOut.idle, st)
  else
    (TickOut.status (pointsRead - st.prevRead)
      (pointsWritten - st.prevWritten)
      (totalRead - pointsRead) (totalWritten - pointsWritten)
      pointsRead totalRead,
     { prevRead := pointsRead, prevWritten := pointsWritten })

/-- Sample record used to evaluate the pipeline on concrete inputs (in the
shape of the test data of `lib.rs`, `create_test_las_file`). -/
def ptA : Point := { x := 1, y := 2, z := 3, intensity := 4, extra_bytes := [9, 9] }

/-- A second sample record. -/
def ptB : Point := { x := 5, y := 6, z := 7, intensity := 8, extra_bytes := [] }

/-- The always-accepting predicate (the `always-true` filter of the CLI
tests and of `test_process_lidar_files_success`). -/
def condAll : Point → Bool := fun _ => true

/-- A concrete bounding predicate in the shape of
`test_process_lidar_files_condition_filtering` (`point.x < 5.0`). -/
def condLe2 : Point → Bool := fun p => decide (p.x ≤ 2)

theorem get?_some_lt {α : Type} (l : List α) (k : Nat) (a : α)
    (h : l.get? k = some a) : k < l.length := by
  induction l generalizing k with
  | nil => simp [List.get?] at h
  | cons b t ih =>
    cases k with
    | zero => simp
    | succ k => simpa using Nat.succ_lt_succ (ih k (by simpa using h))

theorem get?_of_lt {α : Type} (l : List α) (k : Nat) (h : k < l.length) :
    ∃ a, l.get? k = some a := by
  induction l generalizing k with
  | nil => simp at h
  | cons b t ih =>
    cases k with
    | zero => exact ⟨b, rfl⟩
    | succ k => simpa using ih k (by simpa using Nat.lt_of_succ_lt_succ h)

theorem get?_set_self {α : Type} (l : List α) (i : Nat) (a : α)
    (h : i < l.length) : (l.set i a).get? i = some a := by
  induction l generalizing i with
  | nil => simp at h
  | cons b t ih =>
    cases i with
    | zero => rfl
    | succ i => simpa using ih i (by simpa using Nat.lt_of_succ_lt_succ h)

theorem get?_set_ne {α : Type} (l : List α) (i j : Nat) (a : α)
    (h : i ≠ j) : (l.set i a).get? j = l.get? j := by
  induction l generalizing i j with
  | nil => simp
  | cons b t ih =>
    cases i with
    | zero =>
      cases j with
      | zero => exact absurd rfl h
      | succ j => rfl
    | succ i =>
      cases j with
      | zero => rfl
      | succ j => simpa using ih i j (fun hc => h (by rw [hc]))

theorem zip_get?_some {α β : Type} (l₁ : List α) (l₂ : List β) (k : Nat)
    (a : α) (b : β) (h₁ : l₁.get? k = some a) (h₂ : l₂.get? k = some b) :
    (l₁.zip l₂).get? k = some (a, b) := by
  induction l₁ generalizing l₂ k with
  | nil => simp [List.get?] at h₁
  | cons x t ih =>
    cases l₂ with
    | nil => simp [List.get?] at h₂
    | cons y t2 =>
      cases k with
      | zero =>
        simp only [List.get?] at h₁ h₂
        simp [List.zip, Option.some.injEq] at h₁ h₂ ⊢
        exact ⟨h₁, h₂⟩
      | succ k => simpa using ih t2 k (by simpa using h₁) (by simpa using h₂)

theorem replicate_get? {α : Type} (x : α) (n k : Nat) (h : k < n) :
    (List.replicate n x).get? k = some x := by
  induction n generalizing k with
  | zero => simp at h
  | succ n ih =>
    cases k with
    | zero => rfl
    | succ k =>
      rw [List.replicate_succ]
      simpa using ih k (Nat.lt_of_succ_lt_succ h)

theorem contentsFor_nil (j : Nat) : contentsFor j [] = [] := rfl

theorem contentsFor_cons (j i : Nat) (pts : List Point)
    (rest : List (Nat × List Point)) :
    contentsFor j ((i, pts) :: rest) =
      if i = j then pts ++ contentsFor j rest else contentsFor j rest := by
  by_cases h : i = j <;>
    simp [contentsFor, List.filter_cons, h]

theorem contentsFor_append (j : Nat) (a b : List (Nat × List Point)) :
    contentsFor j (a ++ b) = contentsFor j a ++ contentsFor j b := by
  simp [contentsFor, List.filter_append]

theorem contentsFor_eq_nil (j : Nat) (msgs : List (Nat × List Point))
    (h : ∀ m ∈ msgs, m.1 ≠ j) : contentsFor j msgs = [] := by
  induction msgs with
  | nil => rfl
  | cons m rest ih =>
    obtain ⟨i, pts⟩ := m
    rw [contentsFor_cons]
    have hne : i ≠ j := h (i, pts) (List.mem_cons_self _ _)
    simp only [hne, if_false]
    exact ih (fun m hm => h m (List.mem_cons_of_mem _ hm))

theorem routeMsgs_bounds (v : Nat) (p : Point) :
    ∀ (l : List ((Point → Bool) × List Point)) (j0 : Nat),
      ∀ m ∈ routeMsgs v p l j0, j0 ≤ m.1 ∧ m.1 < j0 + l.length := by
  intro l
  induction l with
  | nil => intro j0 m hm; simp [routeMsgs] at hm
  | cons ca rest ih =>
    obtain ⟨cond, acc⟩ := ca
    intro j0 m hm
    simp only [routeMsgs] at hm
    by_cases hc : cond p
    · by_cases hv : v ≤ acc.length + 1
      · simp only [hc, hv, if_true, List.mem_cons] at hm
        rcases hm with h | h
        · subst h
          constructor
          · show j0 ≤ j0
            exact Nat.le_refl _
          · show j0 < j0 + ((cond, acc) :: rest).length
            simp only [List.length_cons]
            omega
        · have := ih (j0 + 1) m h
          refine ⟨by omega, ?_⟩
          simp only [List.length_cons]
          omega
      · simp only [hc, hv, if_true, if_false] at hm
        have := ih (j0 + 1) m hm
        refine ⟨by omega, ?_⟩
        simp only [List.length_cons]
        omega
    · simp only [hc, if_false] at hm
      have := ih (j0 + 1) m hm
      refine ⟨by omega, ?_⟩
      simp only [List.length_cons]
      omega

theorem routeAccs_length (v : Nat) (p : Point)
    (l : List ((Point → Bool) × List Point)) :
    (routeAccs v p l).length = l.length := by
  induction l with
  | nil => rfl
  | cons ca rest ih => obtain ⟨cond, acc⟩ := ca; simp [routeAccs, ih]

theorem routeMsgs_routeAccs_spec (v : Nat) (p : Point) :
    ∀ (l : List ((Point → Bool) × List Point)) (j0 k : Nat)
      (cond : Point → Bool) (acc : List Point),
      l.get? k = some (cond, acc) →
      contentsFor (j0 + k) (routeMsgs v p l j0) ++
          ((routeAccs v p l).get? k).getD []
        = acc ++ (if cond p then [p] else []) := by
  intro l
  induction l with
  | nil => intro j0 k cond acc h; simp [List.get?] at h
  | cons ca rest ih =>
    obtain ⟨c0, a0⟩ := ca
    intro j0 k cond acc h
    have htail : ∀ m ∈ routeMsgs v p rest (j0 + 1), m.1 ≠ j0 := by
      intro m hm
      have := (routeMsgs_bounds v p rest (j0 + 1) m hm).1
      omega
    cases k with
    | zero =>
      have hca : c0 = cond ∧ a0 = acc := by simpa using h
      rw [← hca.1, ← hca.2]
      simp only [Nat.add_zero]
      by_cases hcp : c0 p
      · by_cases hv : v ≤ a0.length + 1
        · simp only [routeMsgs, routeAccs, hcp, hv, if_true]
          rw [contentsFor_cons]
          simp [contentsFor_eq_nil _ _ htail, hcp]
        · simp only [routeMsgs, routeAccs, hcp, hv, if_true, if_false]
          rw [contentsFor_eq_nil _ _ htail]
          simp [hcp]
      · simp only [routeMsgs, routeAccs, hcp, Bool.false_eq_true, if_false]
        rw [contentsFor_eq_nil _ _ htail]
        simp [hcp]
    | succ k =>
      have h2 : rest.get? k = some (cond, acc) := by simpa using h
      have hrw : j0 + (k + 1) = (j0 + 1) + k := by omega
      have step : contentsFor (j0 + (k + 1)) (routeMsgs v p ((c0, a0) :: rest) j0)
          = contentsFor (j0 + (k + 1)) (routeMsgs v p rest (j0 + 1)) := by
        simp only [routeMsgs]
        by_cases hcp : c0 p
        · by_cases hv : v ≤ a0.length + 1
          · simp only [hcp, hv, if_true]
            rw [contentsFor_cons]
            have hne : ¬ (j0 = j0 + (k + 1)) := by omega
            simp [hne]
          · simp [hcp, hv]
        · simp [hcp]
      have haccs : (routeAccs v p ((c0, a0) :: rest)).get? (k + 1)
          = (routeAccs v p rest).get? k := by
        simp [routeAccs]
      rw [step, haccs, hrw]
      exact ih (j0 + 1) k cond acc h2

theorem readerRun_length (conds : List (Point → Bool)) (v : Nat) :
    ∀ (pts : List Point) (accs : List (List Point)),
      accs.length = conds.length →
      ((readerRun conds v pts accs).2).length = conds.length := by
  intro pts
  induction pts with
  | nil => intro accs h; simpa [readerRun] using h
  | cons p rest ih =>
    intro accs h
    have h2 : (routeAccs v p (conds.zip accs)).length = conds.length := by
      rw [routeAccs_length, List.length_zip, h, Nat.min_self]
    simpa [readerRun] using ih (routeAccs v p (conds.zip accs)) h2

theorem readerRun_bounds (conds : List (Point → Bool)) (v : Nat) :
    ∀ (pts : List Point) (accs : List (List Point)),
      accs.length = conds.length →
      ∀ m ∈ (readerRun conds v pts accs).1, m.1 < conds.length := by
  intro pts
  induction pts with
  | nil => intro accs h m hm; simp [readerRun] at hm
  | cons p rest ih =>
    intro accs h m hm
    simp only [readerRun, List.mem_append] at hm
    rcases hm with hm | hm
    · have := (routeMsgs_bounds v p (conds.zip accs) 0 m hm).2
      rw [List.length_zip, h, Nat.min_self] at this
      omega
    · have h2 : (routeAccs v p (conds.zip accs)).length = conds.length := by
        rw [routeAccs_length, List.length_zip, h, Nat.min_self]
      exact ih (routeAccs v p (conds.zip accs)) h2 m hm

theorem readerRun_spec (conds : List (Point → Bool)) (v : Nat) :
    ∀ (pts : List Point) (accs : List (List Point)),
      accs.length = conds.length →
      ∀ (k : Nat) (cond : Point → Bool) (acc : List Point),
        conds.get? k = some cond → accs.get? k = some acc →
        contentsFor k ((readerRun conds v pts accs).1) ++
            (((readerRun conds v pts accs).2).get? k).getD []
          = acc ++ pts.filter cond := by
  intro pts
  induction pts with
  | nil =>
    intro accs h k cond acc hc ha
    show contentsFor k [] ++ (accs.get? k).getD [] = acc ++ List.filter cond []
    rw [contentsFor_nil, ha]
    simp
  | cons p rest ih =>
    intro accs h k cond acc hc ha
    have hzip : (conds.zip accs).get? k = some (cond, acc) :=
      zip_get?_some _ _ _ _ _ hc ha
    have h2 : (routeAccs v p (conds.zip accs)).length = conds.length := by
      rw [routeAccs_length, List.length_zip, h, Nat.min_self]
    have hk : k < conds.length := get?_some_lt _ _ _ hc
    obtain ⟨acc2, ha2⟩ := get?_of_lt (routeAccs v p (conds.zip accs)) k
      (by rw [h2]; exact hk)
    have hstep := routeMsgs_routeAccs_spec v p (conds.zip accs) 0 k cond acc hzip
    rw [Nat.zero_add, ha2] at hstep
    simp only [Option.getD_some] at hstep
    have hrec := ih (routeAccs v p (conds.zip accs)) h2 k cond acc2 hc ha2
    have hgoal : contentsFor k ((readerRun conds v (p :: rest) accs).1) ++
        (((readerRun conds v (p :: rest) accs).2).get? k).getD []
        = contentsFor k (routeMsgs v p (conds.zip accs) 0) ++
          (contentsFor k ((readerRun conds v rest (routeAccs v p (conds.zip accs))).1) ++
            (((readerRun conds v rest (routeAccs v p (conds.zip accs))).2).get? k).getD []) := by
      simp only [readerRun, contentsFor_append, List.append_assoc]
    rw [hgoal, hrec, ← List.append_assoc, hstep]
    rw [List.filter_cons]
    by_cases hcp : cond p
    · simp [hcp]
    · simp [hcp]

theorem flushAccs_bounds :
    ∀ (accs : List (List Point)) (j0 : Nat),
      ∀ m ∈ flushAccs accs j0, j0 ≤ m.1 ∧ m.1 < j0 + accs.length := by
  intro accs
  induction accs with
  | nil => intro j0 m hm; simp [flushAccs] at hm
  | cons acc rest ih =>
    intro j0 m hm
    simp only [flushAccs] at hm
    by_cases he : acc.isEmpty
    · simp only [he, if_true] at hm
      have := ih (j0 + 1) m hm
      refine ⟨by omega, ?_⟩
      simp only [List.length_cons]
      omega
    · simp only [he, Bool.false_eq_true, if_false, List.mem_cons] at hm
      rcases hm with h | h
      · subst h
        constructor
        · show j0 ≤ j0
          exact Nat.le_refl _
        · show j0 < j0 + (acc :: rest).length
          simp only [List.length_cons]
          omega
      · have := ih (j0 + 1) m h
        refine ⟨by omega, ?_⟩
        simp only [List.length_cons]
        omega

theorem flushAccs_contents :
    ∀ (accs : List (List Point)) (j0 k : Nat) (acc : List Point),
      accs.get? k = some acc →
      contentsFor (j0 + k) (flushAccs accs j0) = acc := by
  intro accs
  induction accs with
  | nil => intro j0 k acc h; simp [List.get?] at h
  | cons a0 rest ih =>
    intro j0 k acc h
    have htail : ∀ m ∈ flushAccs rest (j0 + 1), m.1 ≠ j0 := by
      intro m hm
      have := (flushAccs_bounds rest (j0 + 1) m hm).1
      omega
    cases k with
    | zero =>
      have ha : a0 = acc := by simpa using h
      subst ha
      simp only [Nat.add_zero, flushAccs]
      by_cases he : a0.isEmpty
      · simp only [he, if_true]
        rw [contentsFor_eq_nil _ _ htail]
        cases a0 with
        | nil => rfl
        | cons x xs => simp [List.isEmpty] at he
      · simp only [he, Bool.false_eq_true, if_false]
        rw [contentsFor_cons]
        simp [contentsFor_eq_nil _ _ htail]
    | succ k =>
      have h2 : rest.get? k = some acc := by simpa using h
      have hrw : j0 + (k + 1) = (j0 + 1) + k := by omega
      have step : contentsFor (j0 + (k + 1)) (flushAccs (a0 :: rest) j0)
          = contentsFor (j0 + (k + 1)) (flushAccs rest (j0 + 1)) := by
        simp only [flushAccs]
        by_cases he : a0.isEmpty
        · simp [he]
        · simp only [he, Bool.false_eq_true, if_false]
          rw [contentsFor_cons]
          have hne : ¬ (j0 = j0 + (k + 1)) := by omega
          simp [hne]
      rw [step, hrw]
      exact ih (j0 + 1) k acc h2

theorem readerMessages_contents (conds : List (Point → Bool)) (v : Nat)
    (pts : List Point) (k : Nat) (cond : Point → Bool)
    (hc : conds.get? k = some cond) :
    contentsFor k (readerMessages conds v pts) = pts.filter cond := by
  have hk : k < conds.length := get?_some_lt _ _ _ hc
  have hlen0 : (List.replicate conds.length ([] : List Point)).length
      = conds.length := List.length_replicate _ _
  have hrepl : (List.replicate conds.length ([] : List Point)).get? k
      = some [] := replicate_get? _ _ _ hk
  have hlen2 := readerRun_length conds v pts _ hlen0
  obtain ⟨acc, hacc⟩ := get?_of_lt
    ((readerRun conds v pts (List.replicate conds.length [])).2) k
    (by rw [hlen2]; exact hk)
  have h1 := readerRun_spec conds v pts _ hlen0 k cond [] hc hrepl
  rw [hacc] at h1
  have h2 := flushAccs_contents
    ((readerRun conds v pts (List.replicate conds.length [])).2) 0 k acc hacc
  rw [Nat.zero_add] at h2
  simp only [readerMessages, contentsFor_append, h2]
  simpa using h1

theorem readerMessages_bounds (conds : List (Point → Bool)) (v : Nat)
    (pts : List Point) :
    ∀ m ∈ readerMessages conds v pts, m.1 < conds.length := by
  intro m hm
  have hlen0 : (List.replicate conds.length ([] : List Point)).length
      = conds.length := List.length_replicate _ _
  simp only [readerMessages, List.mem_append] at hm
  rcases hm with hm | hm
  · exact readerRun_bounds conds v pts _ hlen0 m hm
  · have := (flushAccs_bounds _ 0 m hm).2
    rw [readerRun_length conds v pts _ hlen0] at this
    omega

theorem stripIf_false (p : Point) : stripIf false p = p := rfl

theorem map_stripIf_false (l : List Point) : l.map (stripIf false) = l := by
  induction l with
  | nil => rfl
  | cons x xs ih => simp [stripIf_false, ih]

theorem writerRun_spec (strip : Bool) :
    ∀ (msgs : List (Nat × List Point)) (outs : List (List Point)),
      (∀ m ∈ msgs, m.1 < outs.length) →
      ∃ outs2, writerRun strip msgs outs = some outs2 ∧
        outs2.length = outs.length ∧
        ∀ k, outs2.get? k = (outs.get? k).map
          (fun cur => cur ++ (contentsFor k msgs).map (stripIf strip)) := by
  intro msgs
  induction msgs with
  | nil =>
    intro outs h
    refine ⟨outs, rfl, rfl, fun k => ?_⟩
    rw [contentsFor_nil]
    cases houts : outs.get? k <;> simp
  | cons m rest ih =>
    obtain ⟨idx, pts⟩ := m
    intro outs h
    have hidx : idx < outs.length := h (idx, pts) (List.mem_cons_self _ _)
    obtain ⟨cur, hcur⟩ := get?_of_lt outs idx hidx
    have h1 : ∀ m ∈ rest, m.1 <
        (outs.set idx (cur ++ pts.map (stripIf strip))).length := by
      rw [List.length_set]
      intro m hm
      exact h m (List.mem_cons_of_mem _ hm)
    obtain ⟨outs2, hrun, hlen, hget⟩ :=
      ih (outs.set idx (cur ++ pts.map (stripIf strip))) h1
    refine ⟨outs2, ?_, ?_, ?_⟩
    · show (match writeBatch strip outs idx pts with
        | none => none
        | some outs3 => writerRun strip rest outs3) = some outs2
      rw [writeBatch, hcur]
      exact hrun
    · rw [hlen, List.length_set]
    · intro k
      rw [hget k, contentsFor_cons]
      by_cases hk : idx = k
      · subst hk
        rw [get?_set_self _ _ _ hidx, hcur]
        simp [List.append_assoc]
      · rw [get?_set_ne _ _ _ _ hk]
        simp only [hk, if_false]

theorem flatten_all_nil {α : Type} (ls : List (List α))
    (h : ∀ l ∈ ls, l = []) : ls.flatten = [] := by
  induction ls with
  | nil => rfl
  | cons l rest ih =>
    have hl : l = [] := h l (List.mem_cons_self _ _)
    simp [hl, ih (fun x hx => h x (List.mem_cons_of_mem _ hx))]

theorem flatten_set_perm {α : Type} :
    ∀ (ls : List (List α)) (i : Nat) (hd : α) (tl : List α),
      ls.get? i = some (hd :: tl) →
      List.Perm ls.flatten (hd :: (ls.set i tl).flatten) := by
  intro ls
  induction ls with
  | nil => intro i hd tl h; simp [List.get?] at h
  | cons a rest ih =>
    intro i hd tl h
    cases i with
    | zero =>
      have ha : a = hd :: tl := by simpa using h
      subst ha
      simp [List.flatten_cons]
    | succ i =>
      have h2 : rest.get? i = some (hd :: tl) := by simpa using h
      have hrec := ih i hd tl h2
      show List.Perm ((a :: rest).flatten) (hd :: ((a :: rest).set (i + 1) tl).flatten)
      have step1 : List.Perm (a ++ rest.flatten)
          (a ++ (hd :: (rest.set i tl).flatten)) :=
        List.Perm.append_left a hrec
      have step2 : List.Perm (a ++ (hd :: (rest.set i tl).flatten))
          (hd :: (a ++ (rest.set i tl).flatten)) := List.perm_middle
      have hflat : (a :: rest).flatten = a ++ rest.flatten := List.flatten_cons
      have hflat2 : ((a :: rest).set (i + 1) tl).flatten
          = a ++ (rest.set i tl).flatten := by
        simp [List.flatten_cons]
      rw [hflat, hflat2]
      exact step1.trans step2

theorem interleave_perm_flatten {α : Type} {ls : List (List α)} {out : List α}
    (h : IsInterleave ls out) : List.Perm out ls.flatten := by
  induction h with
  | empty ls h0 => rw [flatten_all_nil ls h0]
  | pick ls i hd tl out hget hI ih =>
    exact (ih.cons hd).trans (flatten_set_perm ls i hd tl hget).symm

theorem interleave_filter_restrict {α : Type} (p : α → Bool) :
    ∀ {ls : List (List α)} {out : List α}, IsInterleave ls out →
      ∀ (k : Nat) (tgt : List α), ls.get? k = some tgt →
      (∀ (i : Nat) (l : List α), i ≠ k → ls.get? i = some l →
        ∀ m ∈ l, p m = false) →
      (∀ m ∈ tgt, p m = true) →
      out.filter p = tgt := by
  intro ls out h
  induction h with
  | empty ls h0 =>
    intro k tgt hget hoff hon
    have : tgt = [] := by
      have hk : k < ls.length := get?_some_lt _ _ _ hget
      obtain ⟨a, hha⟩ := get?_of_lt ls k hk
      have hmem : tgt ∈ ls := by
        clear hoff hon hk hha h0
        induction ls generalizing k with
        | nil => simp [List.get?] at hget
        | cons x rest ih =>
          cases k with
          | zero =>
            have : x = tgt := by simpa using hget
            rw [this]; exact List.mem_cons_self _ _
          | succ k =>
            exact List.mem_cons_of_mem _ (ih k (by simpa using hget))
      exact h0 tgt hmem
    rw [this]
    rfl
  | pick ls i hd tl out hget hI ih =>
    intro k tgt hktgt hoff hon
    have hi : i < ls.length := get?_some_lt _ _ _ hget
    by_cases hik : i = k
    · subst hik
      have htgt : tgt = hd :: tl := by
        rw [hget] at hktgt
        exact (Option.some.injEq _ _ ▸ hktgt.symm)
      subst htgt
      have hphd : p hd = true := hon hd (List.mem_cons_self _ _)
      rw [List.filter_cons, if_pos hphd]
      have := ih i tl (get?_set_self _ _ _ hi)
        (fun i2 l hne hget2 => hoff i2 l hne (by rwa [get?_set_ne _ _ _ _ (fun hc => hne hc.symm)] at hget2))
        (fun m hm => hon m (List.mem_cons_of_mem _ hm))
      rw [this]
    · have hphd : p hd = false :=
        hoff i (hd :: tl) hik hget hd (List.mem_cons_self _ _)
      rw [List.filter_cons, if_neg (by simp [hphd])]
      apply ih k tgt
      · rwa [get?_set_ne _ _ _ _ hik]
      · intro i2 l hne hget2
        by_cases hii : i = i2
        · subst hii
          rw [get?_set_self _ _ _ hi] at hget2
          have hl : l = tl := by
            exact (Option.some.injEq _ _ ▸ hget2.symm)
          subst hl
          exact fun m hm => hoff i _ hik hget m (List.mem_cons_of_mem _ hm)
        · rw [get?_set_ne _ _ _ _ hii] at hget2
          exact hoff i2 l hne hget2
      · exact hon

theorem tagLists_length {α : Type} :
    ∀ (ls : List (List α)) (s0 : Nat), (tagLists s0 ls).length = ls.length := by
  intro ls
  induction ls with
  | nil => intro s0; rfl
  | cons l rest ih => intro s0; simp [tagLists, ih]

theorem tagLists_get? {α : Type} :
    ∀ (ls : List (List α)) (s0 k : Nat),
      (tagLists s0 ls).get? k
        = (ls.get? k).map (fun l => l.map (fun m => (s0 + k, m))) := by
  intro ls
  induction ls with
  | nil => intro s0 k; rfl
  | cons l rest ih =>
    intro s0 k
    cases k with
    | zero => simp [tagLists]
    | succ k =>
      have hrw : s0 + (k + 1) = (s0 + 1) + k := by omega
      simp only [tagLists, hrw]
      simpa using ih (s0 + 1) k

theorem contentsFor_flatten (k : Nat) :
    ∀ (lss : List (List (Nat × List Point))),
      contentsFor k lss.flatten = (lss.map (contentsFor k)).flatten := by
  intro lss
  induction lss with
  | nil => rfl
  | cons l rest ih => simp [contentsFor_append, ih]

theorem sink_contents_perm (conds : List (Point → Bool)) (v : Nat)
    (sources : List (List Point)) (msgs : List (Nat × List Point))
    (hI : IsInterleave (sources.map (readerMessages conds v)) msgs)
    (k : Nat) (cond : Point → Bool) (hc : conds.get? k = some cond) :
    List.Perm (contentsFor k msgs)
      ((sources.map (fun s => s.filter cond)).flatten) := by
  have hperm := interleave_perm_flatten hI
  have h1 : List.Perm (contentsFor k msgs)
      (contentsFor k ((sources.map (readerMessages conds v)).flatten)) := by
    unfold contentsFor
    exact ((hperm.filter _).map _).flatten
  rw [contentsFor_flatten, List.map_map] at h1
  have h2 : sources.map (contentsFor k ∘ readerMessages conds v)
      = sources.map (fun s => s.filter cond) := by
    apply List.map_congr_left
    intro s _
    exact readerMessages_contents conds v s k cond hc
  rwa [h2] at h1

theorem get?_map_fn {α β : Type} (f : α → β) (l : List α) (k : Nat) :
    (l.map f).get? k = (l.get? k).map f := by
  induction l generalizing k with
  | nil => rfl
  | cons x t ih =>
    cases k with
    | zero => rfl
    | succ k => simp [ih k]

theorem isInterleave_singleton {α : Type} (l : List α) : IsInterleave [l] l := by
  induction l with
  | nil => exact IsInterleave.empty _ (by simp)
  | cons hd tl ih => exact IsInterleave.pick _ 0 hd tl tl rfl ih

/-- C1: pairing the `conds.length` predicates 1:1 with as many sinks, for
any readable sources and any channel arrival order `msgs` of the reader
tasks' message sequences, the writer loop succeeds and sink `k` contains
exactly the accepted records: every record appended to sink `k` satisfies
predicate `k`, and the sink's final record count equals the number of
records across all sources for which predicate `k` returned true. -/
theorem per_sink_exact_content
    (conds : List (Point → Bool)) (vecSize : Nat) (sources : List (List Point))
    (msgs : List (Nat × List Point))
    (hI : IsInterleave (sources.map (readerMessages conds vecSize)) msgs)
    (k : Nat) (cond : Point → Bool) (hc : conds.get? k = some cond) :
    ∃ outs, writerRun false msgs (List.replicate conds.length []) = some outs ∧
      ∃ written, outs.get? k = some written ∧
        (∀ p ∈ written, cond p = true) ∧
        written.length
          = ((sources.map (fun s => (s.filter cond).length)).sum) := by
  have hb : ∀ m ∈ msgs, m.1 < conds.length := by
    intro m hm
    have hmem : m ∈ (sources.map (readerMessages conds vecSize)).flatten :=
      (interleave_perm_flatten hI).subset hm
    rw [List.mem_flatten] at hmem
    obtain ⟨l, hl, hml⟩ := hmem
    rw [List.mem_map] at hl
    obtain ⟨s, _, rfl⟩ := hl
    exact readerMessages_bounds conds vecSize s m hml
  obtain ⟨outs, hrun, hlen, hget⟩ := writerRun_spec false msgs
    (List.replicate conds.length [])
    (by rw [List.length_replicate]; exact hb)
  have hk : k < conds.length := get?_some_lt _ _ _ hc
  refine ⟨outs, hrun, contentsFor k msgs, ?_, ?_, ?_⟩
  · rw [hget k, replicate_get? _ _ _ hk]
    simp [map_stripIf_false]
  · intro p hp
    have hperm := sink_contents_perm conds vecSize sources msgs hI k cond hc
    have hpj : p ∈ (sources.map (fun s => s.filter cond)).flatten :=
      hperm.subset hp
    rw [List.mem_flatten] at hpj
    obtain ⟨l, hl, hpl⟩ := hpj
    rw [List.mem_map] at hl
    obtain ⟨s, _, rfl⟩ := hl
    exact (List.mem_filter.mp hpl).2
  · have hperm := sink_contents_perm conds vecSize sources msgs hI k cond hc
    rw [hperm.length_eq, List.length_flatten, List.map_map]
    rfl

theorem per_sink_exact_content_witness :
    IsInterleave ([[ptA, ptB]].map (readerMessages [condLe2] 5))
      (readerMessages [condLe2] 5 [ptA, ptB]) ∧
    ([condLe2] : List (Point → Bool)).get? 0 = some condLe2 ∧
    (∃ outs, writerRun false (readerMessages [condLe2] 5 [ptA, ptB])
        (List.replicate ([condLe2] : List (Point → Bool)).length [])
        = some outs ∧
      ∃ written, outs.get? 0 = some written ∧
        (∀ p ∈ written, condLe2 p = true) ∧
        written.length
          = (([[ptA, ptB]].map (fun s => (s.filter condLe2).length)).sum)) :=
  ⟨isInterleave_singleton _, rfl,
    per_sink_exact_content [condLe2] 5 [[ptA, ptB]] _
      (isInterleave_singleton _) 0 condLe2 rfl⟩

/-- C3: for every record of every source, every configured predicate is
consulted, and a record accepted by a predicate ends up written to the
corresponding sink — simultaneously for all accepting predicates, so a
record accepted by several predicates reaches each of their sinks. -/
theorem multi_dispatch_routing
    (conds : List (Point → Bool)) (vecSize : Nat) (sources : List (List Point))
    (msgs : List (Nat × List Point))
    (hI : IsInterleave (sources.map (readerMessages conds vecSize)) msgs)
    (src : List Point) (hsrc : src ∈ sources) (p : Point) (hp : p ∈ src)
    (k : Nat) (cond : Point → Bool) (hc : conds.get? k = some cond)
    (hcp : cond p = true) :
    ∃ outs, writerRun false msgs (List.replicate conds.length []) = some outs ∧
      ∃ written, outs.get? k = some written ∧ p ∈ written := by
  have hb : ∀ m ∈ msgs, m.1 < conds.length := by
    intro m hm
    have hmem : m ∈ (sources.map (readerMessages conds vecSize)).flatten :=
      (interleave_perm_flatten hI).subset hm
    rw [List.mem_flatten] at hmem
    obtain ⟨l, hl, hml⟩ := hmem
    rw [List.mem_map] at hl
    obtain ⟨s, _, rfl⟩ := hl
    exact readerMessages_bounds conds vecSize s m hml
  obtain ⟨outs, hrun, hlen, hget⟩ := writerRun_spec false msgs
    (List.replicate conds.length [])
    (by rw [List.length_replicate]; exact hb)
  have hk : k < conds.length := get?_some_lt _ _ _ hc
  refine ⟨outs, hrun, contentsFor k msgs, ?_, ?_⟩
  · rw [hget k, replicate_get? _ _ _ hk]
    simp [map_stripIf_false]
  · have hperm := sink_contents_perm conds vecSize sources msgs hI k cond hc
    apply hperm.symm.subset
    rw [List.mem_flatten]
    exact ⟨src.filter cond, List.mem_map_of_mem _ hsrc,
      List.mem_filter.mpr ⟨hp, hcp⟩⟩

theorem multi_dispatch_routing_witness :
    IsInterleave ([[ptA]].map (readerMessages [condAll, condLe2] 5))
      (readerMessages [condAll, condLe2] 5 [ptA]) ∧
    [ptA] ∈ ([[ptA]] : List (List Point)) ∧ ptA ∈ [ptA] ∧
    condAll ptA = true ∧ condLe2 ptA = true ∧
    (∃ outs, writerRun false (readerMessages [condAll, condLe2] 5 [ptA])
        (List.replicate ([condAll, condLe2] : List (Point → Bool)).length [])
        = some outs ∧
      ∃ written, outs.get? 0 = some written ∧ ptA ∈ written) ∧
    (∃ outs, writerRun false (readerMessages [condAll, condLe2] 5 [ptA])
        (List.replicate ([condAll, condLe2] : List (Point → Bool)).length [])
        = some outs ∧
      ∃ written, outs.get? 1 = some written ∧ ptA ∈ written) :=
  ⟨isInterleave_singleton _, List.mem_cons_self _ _, List.mem_cons_self _ _,
    rfl, by decide,
    multi_dispatch_routing [condAll, condLe2] 5 [[ptA]] _
      (isInterleave_singleton _) [ptA] (List.mem_cons_self _ _) ptA
      (List.mem_cons_self _ _) 0 condAll rfl rfl,
    multi_dispatch_routing [condAll, condLe2] 5 [[ptA]] _
      (isInterleave_singleton _) [ptA] (List.mem_cons_self _ _) ptA
      (List.mem_cons_self _ _) 1 condLe2 rfl (by decide)⟩

/-- C5: for any channel arrival order of the source-tagged reader messages,
the subsequence of messages originating from source `s` is exactly that
reader's produced message sequence, in production order; consequently the
records sink `k` receives from source `s`, in append order, are exactly
`src.filter cond` — the order the owning reader produced them for that
sink.  Nothing constrains the interleaving of different sources. -/
theorem per_source_per_sink_order
    (conds : List (Point → Bool)) (vecSize : Nat) (sources : List (List Point))
    (msgsT : List (Nat × Nat × List Point))
    (hI : IsInterleave
      (tagLists 0 (sources.map (readerMessages conds vecSize))) msgsT)
    (s : Nat) (src : List Point) (hs : sources.get? s = some src)
    (k : Nat) (cond : Point → Bool) (hc : conds.get? k = some cond) :
    (msgsT.filter (fun t => t.1 == s)).map Prod.snd
        = readerMessages conds vecSize src ∧
    contentsFor k ((msgsT.filter (fun t => t.1 == s)).map Prod.snd)
        = src.filter cond := by
  have hmapget : (sources.map (readerMessages conds vecSize)).get? s
      = some (readerMessages conds vecSize src) := by
    rw [get?_map_fn, hs]
    rfl
  have htagget : (tagLists 0 (sources.map (readerMessages conds vecSize))).get? s
      = some ((readerMessages conds vecSize src).map (fun m => (s, m))) := by
    rw [tagLists_get?, hmapget]
    simp
  have hfilter : msgsT.filter (fun t => t.1 == s)
      = (readerMessages conds vecSize src).map (fun m => (s, m)) := by
    apply interleave_filter_restrict _ hI s _ htagget
    · intro i l hne hget m hm
      have hil : i < (sources.map (readerMessages conds vecSize)).length := by
        have := get?_some_lt _ _ _ hget
        rwa [tagLists_length] at this
      obtain ⟨li, hli⟩ := get?_of_lt _ i hil
      rw [tagLists_get?, hli] at hget
      have hget2 : li.map (fun m => (0 + i, m)) = l := by
        have h3 : some (li.map (fun m => (0 + i, m))) = some l := hget
        exact Option.some.inj h3
      rw [← hget2] at hm
      rw [List.mem_map] at hm
      obtain ⟨m0, _, rfl⟩ := hm
      show ((0 + i, m0).1 == s) = false
      have hzi : 0 + i = i := Nat.zero_add i
      simp only [hzi]
      simpa using hne
    · intro m hm
      rw [List.mem_map] at hm
      obtain ⟨m0, _, rfl⟩ := hm
      simp
  constructor
  · rw [hfilter, List.map_map]
    simp
  · rw [hfilter, List.map_map]
    have hid : ((readerMessages conds vecSize src).map
        (Prod.snd ∘ fun m => (s, m))) = readerMessages conds vecSize src := by
      simp
    rw [hid]
    exact readerMessages_contents conds vecSize src k cond hc

theorem per_source_per_sink_order_witness :
    IsInterleave (tagLists 0 ([[ptA], [ptB]].map (readerMessages [condAll] 5)))
      [(1, (0, [ptB])), (0, (0, [ptA]))] ∧
    ([[ptA], [ptB]] : List (List Point)).get? 0 = some [ptA] ∧
    ([condAll] : List (Point → Bool)).get? 0 = some condAll ∧
    ((([(1, (0, [ptB])), (0, (0, [ptA]))] :
        List (Nat × Nat × List Point)).filter (fun t => t.1 == 0)).map Prod.snd
        = readerMessages [condAll] 5 [ptA] ∧
      contentsFor 0 ((([(1, (0, [ptB])), (0, (0, [ptA]))] :
        List (Nat × Nat × List Point)).filter (fun t => t.1 == 0)).map Prod.snd)
        = [ptA].filter condAll) := by
  have hI : IsInterleave
      (tagLists 0 ([[ptA], [ptB]].map (readerMessages [condAll] 5)))
      [(1, (0, [ptB])), (0, (0, [ptA]))] :=
    IsInterleave.pick _ 1 (1, (0, [ptB])) [] _ (by decide)
      (IsInterleave.pick _ 0 (0, (0, [ptA])) [] _ (by decide)
        (IsInterleave.empty _ (by decide)))
  exact ⟨hI, rfl, rfl,
    per_source_per_sink_order [condAll] 5 [[ptA], [ptB]] _ hI 0 [ptA] rfl
      0 condAll rfl⟩

/-- C7: with the strip option enabled, the transformed output header
declares zero extra bytes, the writer loop succeeds, and every record
written to any sink is its routed input record with the extra-bytes block
emptied — in particular every written record has empty `extra_bytes` while
the stripping transform leaves the core geometric fields x, y, z
unchanged. -/
theorem strip_extra_bytes_effect
    (msgs : List (Nat × List Point)) (n : Nat) (hb : ∀ m ∈ msgs, m.1 < n)
    (h : Header) (k : Nat) (hk : k < n) :
    (outputHeader true h).point_format.extra_bytes = 0 ∧
    ∃ outs, writerRun true msgs (List.replicate n []) = some outs ∧
      ∃ written, outs.get? k = some written ∧
        written = (contentsFor k msgs).map (stripIf true) ∧
        (∀ q ∈ written, q.extra_bytes = []) ∧
        (∀ q : Point, (stripIf true q).x = q.x ∧ (stripIf true q).y = q.y ∧
          (stripIf true q).z = q.z) := by
  refine ⟨rfl, ?_⟩
  obtain ⟨outs, hrun, hlen, hget⟩ := writerRun_spec true msgs
    (List.replicate n []) (by rw [List.length_replicate]; exact hb)
  refine ⟨outs, hrun, (contentsFor k msgs).map (stripIf true), ?_, rfl, ?_, ?_⟩
  · rw [hget k, replicate_get? _ _ _ hk]
    simp
  · intro q hq
    rw [List.mem_map] at hq
    obtain ⟨q0, _, rfl⟩ := hq
    rfl
  · intro q
    exact ⟨rfl, rfl, rfl⟩

theorem strip_extra_bytes_effect_witness :
    (∀ m ∈ ([(0, [ptA])] : List (Nat × List Point)), m.1 < 1) ∧ 0 < 1 ∧
    ((outputHeader true
        { point_format := { base := 3, extra_bytes := 6 },
          number_of_points := 10 }).point_format.extra_bytes = 0 ∧
      ∃ outs, writerRun true [(0, [ptA])] (List.replicate 1 []) = some outs ∧
        ∃ written, outs.get? 0 = some written ∧
          written = (contentsFor 0 [(0, [ptA])]).map (stripIf true) ∧
          (∀ q ∈ written, q.extra_bytes = []) ∧
          (∀ q : Point, (stripIf true q).x = q.x ∧ (stripIf true q).y = q.y ∧
            (stripIf true q).z = q.z)) :=
  ⟨by decide, by decide,
    strip_extra_bytes_effect [(0, [ptA])] 1 (by decide)
      { point_format := { base := 3, extra_bytes := 6 },
        number_of_points := 10 } 0 (by decide)⟩

/-- C2: the body of `process_lidar_files` handles every fallible operation
with `unwrap()` and ends in `Ok(())`, so the function can only return
success or panic — it never returns `Err(MyError)` to the caller.  At the
failing input of the repository's own test
`test_process_lidar_files_file_not_found` (a single non-existent source
path) the call panics instead of returning an error; and a failure of a
non-first source is swallowed entirely: its pool thread panics unobserved
and the run still returns success. -/
theorem run_never_returns_err :
    (∀ (self : LasProcessor) (numThreads : Nat)
        (fs : String → Option (List Point)) (sinksOk : Bool),
      self.process_lidar_files numThreads fs sinksOk = RunResult.success ∨
      self.process_lidar_files numThreads fs sinksOk = RunResult.panicked) ∧
    (LasProcessor.new ["non_existent_file.las"] ["output.las"] [condAll]
        false).process_lidar_files 8 (fun _ => none) true
      = RunResult.panicked ∧
    (LasProcessor.new ["a.las", "missing.las"] ["out.las"] [condAll]
        false).process_lidar_files 8
        (fun q => if q = "a.las" then some [ptA] else none) true
      = RunResult.success := by
  refine ⟨?_, by decide, by decide⟩
  intro self numThreads fs sinksOk
  cases h0 : self.paths[0]? with
  | none => right; simp [LasProcessor.process_lidar_files, h0]
  | some p0 =>
    cases h1 : fs p0 with
    | none => right; simp [LasProcessor.process_lidar_files, h0, h1]
    | some pts =>
      cases h2 : readerPoolSetup numThreads self.output_paths.length with
      | none => right; simp [LasProcessor.process_lidar_files, h0, h1, h2]
      | some nn =>
        cases hs : sinksOk with
        | false =>
          right; simp [LasProcessor.process_lidar_files, h0, h1, h2]
        | true =>
          cases hw : writerRun self.strip_extra_bytes
              (((self.paths.filterMap fs).map
                (readerMessages self.conditions self.vec_size)).flatten)
              (List.replicate self.output_paths.length []) with
          | none =>
            right; simp [LasProcessor.process_lidar_files, h0, h1, h2, hw]
          | some outs =>
            left; simp [LasProcessor.process_lidar_files, h0, h1, h2, hw]

/-- C4 counterexample: constructing a processor with one predicate and two
sinks — a predicate/sink count mismatch — and running it on a readable
source completes with success.  The run does not fail at construction, nor
before I/O, nor at all: no ConfigurationError (or any error) is produced,
contradicting the claim that the mismatch fails immediately. -/
theorem mismatch_run_succeeds :
    (LasProcessor.new ["in.las"] ["out1.las", "out2.las"] [condAll]
        false).process_lidar_files 8
        (fun q => if q = "in.las" then some [ptA] else none) true
      = RunResult.success := by decide

/-- C4 amended: `LasProcessor::new` performs no validation — it returns the
processor with the given fields (and the fixed `vec_size` 100000) for any
predicate and sink counts; the error enum has no ConfigurationError-like
variant beyond the listed eight; and with more predicates than sinks the
run panics on an out-of-range sink index only after I/O has begun, rather
than failing up front. -/
theorem no_count_validation :
    (∀ (paths outs : List String) (conds : List (Point → Bool))
        (strip : Bool),
      (LasProcessor.new paths outs conds strip).paths = paths ∧
      (LasProcessor.new paths outs conds strip).output_paths = outs ∧
      (LasProcessor.new paths outs conds strip).conditions = conds ∧
      (LasProcessor.new paths outs conds strip).strip_extra_bytes = strip ∧
      (LasProcessor.new paths outs conds strip).vec_size = 100000) ∧
    (∀ e : MyError, e = MyError.ReadError ∨ e = MyError.InputOutputError ∨
      e = MyError.LockError ∨ e = MyError.ThreadError ∨
      e = MyError.SendError ∨ e = MyError.InvalidOutputExtension ∨
      e = MyError.InvalidInputPath ∨ e = MyError.InvalidFilterFunction) ∧
    (LasProcessor.new ["in.las"] ["out.las"] [condAll, condAll]
        false).process_lidar_files 8
        (fun q => if q = "in.las" then some [ptA] else none) true
      = RunResult.panicked := by
  refine ⟨fun paths outs conds strip => ⟨rfl, rfl, rfl, rfl, rfl⟩, ?_, by decide⟩
  intro e
  cases e <;> simp

/-- C10: whenever the number of logical cores is at most 2 plus the number
of output sinks, `process_lidar_files` panics — by `usize` underflow in
`num_threads - 2 - output_paths.len()` or by `ThreadPool::new(0)` — before
any record is read, for every file system and predicate configuration. -/
theorem pool_sizing_panics (self : LasProcessor) (numThreads : Nat)
    (fs : String → Option (List Point)) (sinksOk : Bool)
    (hle : numThreads ≤ 2 + self.output_paths.length) :
    self.process_lidar_files numThreads fs sinksOk = RunResult.panicked := by
  have hnone : readerPoolSetup numThreads self.output_paths.length = none := by
    unfold readerPoolSetup sendthreads threadPoolNew
    by_cases h2 : numThreads < 2
    · simp [h2]
    · by_cases h3 : numThreads - 2 < self.output_paths.length
      · simp [h2, h3]
      · have h4 : numThreads - 2 - self.output_paths.length = 0 := by omega
        simp [h2, h3, h4]
  cases h0 : self.paths[0]? with
  | none => simp [LasProcessor.process_lidar_files, h0]
  | some p0 =>
    cases h1 : fs p0 with
    | none => simp [LasProcessor.process_lidar_files, h0, h1]
    | some pts => simp [LasProcessor.process_lidar_files, h0, h1, hnone]

theorem pool_sizing_panics_witness :
    4 ≤ 2 + (LasProcessor.new ["in.las"] ["o1.las", "o2.las"] [condAll]
      false).output_paths.length ∧
    (LasProcessor.new ["in.las"] ["o1.las", "o2.las"] [condAll]
        false).process_lidar_files 4
        (fun q => if q = "in.las" then some [ptA] else none) true
      = RunResult.panicked :=
  ⟨by decide, pool_sizing_panics _ 4 _ true (by decide)⟩

/-- C6 counterexample: the orchestrator's program order for a two-source
run, computed from the embedding of `process_lidar_files`.  The literal
event list shows `dropMainSender` occurring right after the two
`scheduleReader` events and before the receive loop, and it contains no
`joinReader` event at all — the orchestrator never joins the reader tasks,
so it does not drop the sending side "once every reader task has joined". -/
theorem orchestrator_drops_without_join :
    mainThreadEvents 2 =
      [Ev.spawnMonitor, Ev.openFirstHeader, Ev.createChannelAndPool,
       Ev.scheduleReader 0, Ev.scheduleReader 1, Ev.dropMainSender,
       Ev.openSinks, Ev.recvLoop, Ev.returnOk] := by decide

theorem sendersAfter_eq_zero_iff (n : Nat) (t : List Ev) :
    sendersAfter n t = 0 ↔
      (Ev.dropMainSender ∈ t ∧
        ∀ i, i < n → Ev.readerTerminates i ∈ t) := by
  unfold sendersAfter
  by_cases hd : Ev.dropMainSender ∈ t
  · rw [if_pos hd, Nat.zero_add, List.length_eq_zero]
    constructor
    · intro h
      refine ⟨hd, fun i hi => ?_⟩
      by_contra hni
      have hmem : i ∈ (List.range n).filter
          (fun i => decide (Ev.readerTerminates i ∉ t)) := by
        rw [List.mem_filter]
        exact ⟨List.mem_range.mpr hi, by simpa using hni⟩
      rw [h] at hmem
      simp at hmem
    · intro h
      rw [List.eq_nil_iff_forall_not_mem]
      intro x hx
      rw [List.mem_filter] at hx
      obtain ⟨hx1, hx2⟩ := hx
      have := h.2 x (List.mem_range.mp hx1)
      simp [this] at hx2
  · constructor
    · intro h
      simp only [hd, if_false] at h
      omega
    · intro h
      exact absurd h.1 hd

theorem mem_take_mono {α : Type} (l : List α) (a : α) (k1 k2 : Nat)
    (hk : k1 ≤ k2) (h : a ∈ l.take k1) : a ∈ l.take k2 := by
  have heq : l.take k1 = (l.take k2).take k1 := by
    rw [List.take_take, Nat.min_eq_left hk]
  rw [heq] at h
  exact List.take_subset _ _ h

/-- C6 amended: the channel's sending side becomes closed — its live sender
count reaches zero — only after the orchestrator's own `drop(tx)` and the
termination of every reader task (each reader holds a sender clone until it
terminates); and this closing transition happens at most once along any
trace: any two positions where the sender count crosses to zero are equal.
The orchestrator itself never joins the readers; closure is by sender
reference count. -/
theorem channel_close_after_all_readers (n : Nat) (trace : List Ev) (k : Nat)
    (hclosed : sendersAfter n (trace.take k) = 0) :
    (Ev.dropMainSender ∈ trace.take k ∧
      ∀ i, i < n → Ev.readerTerminates i ∈ trace.take k) ∧
    (∀ k1 k2,
      (sendersAfter n (trace.take k1) ≠ 0 ∧
        sendersAfter n (trace.take (k1 + 1)) = 0) →
      (sendersAfter n (trace.take k2) ≠ 0 ∧
        sendersAfter n (trace.take (k2 + 1)) = 0) → k1 = k2) := by
  have hmono : ∀ k1 k2, k1 ≤ k2 → sendersAfter n (trace.take k1) = 0 →
      sendersAfter n (trace.take k2) = 0 := by
    intro k1 k2 hle hz
    rw [sendersAfter_eq_zero_iff] at hz ⊢
    exact ⟨mem_take_mono _ _ _ _ hle hz.1,
      fun i hi => mem_take_mono _ _ _ _ hle (hz.2 i hi)⟩
  refine ⟨(sendersAfter_eq_zero_iff n _).mp hclosed, ?_⟩
  intro k1 k2 h1 h2
  rcases Nat.lt_trichotomy k1 k2 with hlt | heq | hgt
  · exact absurd (hmono (k1 + 1) k2 hlt h1.2) h2.1
  · exact heq
  · exact absurd (hmono (k2 + 1) k1 hgt h2.2) h1.1

theorem channel_close_after_all_readers_witness :
    sendersAfter 1 ([Ev.dropMainSender, Ev.readerTerminates 0].take 2) = 0 ∧
    (Ev.dropMainSender ∈ [Ev.dropMainSender, Ev.readerTerminates 0].take 2 ∧
      ∀ i, i < 1 →
        Ev.readerTerminates i ∈
          [Ev.dropMainSender, Ev.readerTerminates 0].take 2) :=
  ⟨by decide,
    (channel_close_after_all_readers 1
      [Ev.dropMainSender, Ev.readerTerminates 0] 2 (by decide)).1⟩

/-- C8 counterexample: one active tick of the legacy monitor of `main.rs`
(lines 36-67), starting from total 100, points-written 5, points-read 7 at
one elapsed second, ends with the counters at (93, 0, 0): points-written
drops from 5 to 0, points-read from 7 to 0, and the total from 100 to 93 —
shared counter updates inside one run that strictly decrease values. -/
theorem main_monitor_resets_counters :
    mainsrcMonitorTick 1 100 5 7 = some (93, 0, 0) ∧
    (0 : Nat) < 5 ∧ (0 : Nat) < 7 ∧ 93 < 100 := by decide

theorem writtenCounterTrace_add (msgs : List (Nat × List Point)) :
    ∀ a : Nat, msgs.foldl (fun s m => addPointsWritten m.2.length s) a
      = a + (msgs.map (fun m => m.2.length)).sum := by
  induction msgs with
  | nil => intro a; simp
  | cons m rest ih =>
    intro a
    rw [List.foldl_cons, ih, List.map_cons, List.sum_cons]
    simp only [addPointsWritten]
    omega

/-- C8 amended: inside `process_lidar_files` every update to the four
shared progress counters (total-points-to-read at line 194, points-read at
line 219, total-points-to-write at lines 231/249, points-written at line
299) adds a non-negative amount, so each counter is monotonically
non-decreasing for the duration of one run, and the points-written counter
after any prefix of the writer loop never exceeds its final value; the
counters are created afresh per run.  The within-run resets exist only in
the legacy monitor of `main.rs` (see the counterexample). -/
theorem lib_counter_updates_monotone :
    (∀ c s, s ≤ addTotalToRead c s) ∧
    (∀ s, s ≤ incPointsRead s) ∧
    (∀ b s, s ≤ addTotalToWrite b s) ∧
    (∀ b s, s ≤ addPointsWritten b s) ∧
    (∀ (msgs : List (Nat × List Point)) (k : Nat),
      writtenCounterTrace (msgs.take k) ≤ writtenCounterTrace msgs) := by
  refine ⟨fun c s => Nat.le_add_right s c, fun s => Nat.le_add_right s 1,
    fun b s => Nat.le_add_right s b, fun b s => Nat.le_add_right s b, ?_⟩
  intro msgs k
  unfold writtenCounterTrace
  rw [writtenCounterTrace_add, writtenCounterTrace_add, Nat.zero_add,
    Nat.zero_add, List.map_take]
  have hsplit : (msgs.map (fun m => m.2.length)).sum
      = ((msgs.map (fun m => m.2.length)).take k).sum
        + ((msgs.map (fun m => m.2.length)).drop k).sum := by
    rw [← List.sum_append, List.take_append_drop]
  omega

/-- C9 counterexample: a tick at cumulative counters points-read 5 and
points-written 3 that are unchanged since the previous tick — so no record
was read or written during this tick — does not produce the idle notice:
the monitor emits a regular status line with zero deltas, because the idle
branch (`lib.rs` line 114) tests the cumulative counters against zero, not
the per-tick activity. -/
theorem zero_delta_tick_not_idle :
    libMonitorTick 5 3 10 8 { prevRead := 5, prevWritten := 3 }
      = (TickOut.status 0 0 5 5 5 10,
         { prevRead := 5, prevWritten := 3 }) := by decide

/-- C9 amended: the library monitor emits the idle notice exactly on ticks
where the cumulative points-read and points-written counters are both zero,
leaving its previous-counters memory untouched, and otherwise emits a
status line computed from unchecked subtractions together with the
percent-complete division whose divisor is the total-points-to-read counter
(taken in floating point and without an explicit zero guard); in either
case the tick only continues the loop — the monitor never terminates the
pipeline and never writes a shared counter. -/
theorem monitor_idle_iff_zero_counters (r w tr tw : Nat)
    (st : MonitorState) :
    ((libMonitorTick r w tr tw st).1 = TickOut.idle ↔ (r = 0 ∧ w = 0)) ∧
    ((libMonitorTick r w tr tw st).2 =
      if r = 0 ∧ w = 0 then st
      else { prevRead := r, prevWritten := w }) ∧
    (¬(r = 0 ∧ w = 0) →
      (libMonitorTick r w tr tw st).1
        = TickOut.status (r - st.prevRead) (w - st.prevWritten)
            (tr - r) (tw - w) r tr) := by
  by_cases h : r = 0 ∧ w = 0
  · refine ⟨?_, ?_, ?_⟩
    · simp [libMonitorTick, h]
    · simp [libMonitorTick, h]
    · intro h2
      exact absurd h h2
  · refine ⟨?_, ?_, ?_⟩
    · simp [libMonitorTick, h]
    · simp [libMonitorTick, h]
    · intro h2
      simp [libMonitorTick, h]

theorem monitor_idle_iff_zero_counters_witness :
    (libMonitorTick 0 0 10 8 { prevRead := 0, prevWritten := 0 }).1
        = TickOut.idle ∧
    (libMonitorTick 5 3 10 8 { prevRead := 0, prevWritten := 0 }).1
        = TickOut.status 5 3 5 5 5 10 :=
  ⟨(monitor_idle_iff_zero_counters 0 0 10 8
      { prevRead := 0, prevWritten := 0 }).1.mpr (by decide),
   (monitor_idle_iff_zero_counters 5 3 10 8
      { prevRead := 0, prevWritten := 0 }).2.2 (by decide)⟩

end LasTrimmer
